import Mathlib

/- Verification development for the geometric core of the stackplus
repository (src/polygons.py).  Polygons are modelled as open rings of
rational points (shapely stores a closed ring; the embedding strips the
duplicate closing vertex).  The shapely predicates the source calls are
embedded by their documented formulas: the winding test is the sign of the
shoelace sum, the area property is half the absolute shoelace sum. -/

namespace StackPlus

/-- A 2D point with rational coordinates. -/
abbrev Point := ℚ × ℚ

/-- One term of the shoelace sum, for the directed edge from p to q. -/
def cross (p q : Point) : ℚ := p.1 * q.2 - q.1 * p.2

/-- Sum of cross over consecutive pairs of an open vertex path. -/
def pathSum : List Point → ℚ
  | p :: q :: r => cross p q + pathSum (q :: r)
  | _ => 0

/-- Last element of a list, with a default for the empty list. -/
def lastD : List Point → Point → Point
  | [], d => d
  | [a], _ => a
  | _ :: b :: r, d => lastD (b :: r) d

/-- Twice the signed area of the closed ring over the given open vertex list
(the shoelace formula); positive exactly for counter-clockwise rings. -/
def shoelace : List Point → ℚ
  | [] => 0
  | p :: t => pathSum (p :: t) + cross (lastD t p) p

/-- Reversal of a ring as shapely performs it on the stored closed ring
[p0, ..., pk, p0]: the result is [p0, pk, ..., p1, p0], so on the open
representation the head stays put and the tail is reversed. -/
def reverseRing : List Point → List Point
  | [] => []
  | h :: t => h :: t.reverse

/-- Embedding of the private helper __forceCCW of src/polygons.py.  The
shapely test exterior.is_ccw holds when the signed area is positive, and a
ring failing the test is reversed. -/
def forceCCW (l : List Point) : List Point :=
  if 0 < shoelace l then l else reverseRing l

/-- Absolute value on the rationals, written out so that it evaluates. -/
def ratAbs (x : ℚ) : ℚ := if x < 0 then -x else x

theorem ratAbs_eq_abs (x : ℚ) : ratAbs x = |x| := by
  unfold ratAbs
  split
  · exact (abs_of_neg (by assumption)).symm
  · exact (abs_of_nonneg (le_of_not_lt (by assumption))).symm

theorem ratAbs_neg (x : ℚ) : ratAbs (-x) = ratAbs x := by
  rw [ratAbs_eq_abs, ratAbs_eq_abs, abs_neg]

/-- Unsigned polygon area as the shapely area property computes it for a
plain exterior ring: half the absolute value of the shoelace sum. -/
def geomArea (l : List Point) : ℚ := ratAbs (shoelace l) / 2

theorem cross_antisymm (p q : Point) : cross p q = -cross q p := by
  unfold cross; ring

theorem cross_self (p : Point) : cross p p = 0 := by
  unfold cross; ring

theorem lastD_cons_cons (a b : Point) (r : List Point) (d : Point) :
    lastD (a :: b :: r) d = lastD (b :: r) d := rfl

theorem lastD_irrel (l : List Point) (h : l ≠ []) (d e : Point) :
    lastD l d = lastD l e := by
  induction l with
  | nil => exact absurd rfl h
  | cons a t ih =>
    cases t with
    | nil => rfl
    | cons b r => simpa [lastD_cons_cons] using ih (by simp)

theorem lastD_concat (l : List Point) (x d : Point) :
    lastD (l ++ [x]) d = x := by
  induction l with
  | nil => rfl
  | cons a t ih =>
    cases t with
    | nil => rfl
    | cons b r =>
      have : (a :: b :: r) ++ [x] = a :: ((b :: r) ++ [x]) := by simp
      rw [this]
      have hbr : (b :: r) ++ [x] = b :: (r ++ [x]) := by simp
      rw [hbr, show a :: b :: (r ++ [x]) = a :: ((b :: (r ++ [x]))) from rfl]
      rw [lastD_cons_cons, ← hbr]
      exact ih

theorem lastD_reverse (l : List Point) (d : Point) :
    lastD l.reverse d = l.headD d := by
  cases l with
  | nil => rfl
  | cons a t => rw [List.reverse_cons, lastD_concat]; rfl

theorem headD_reverse (l : List Point) (d : Point) :
    l.reverse.headD d = lastD l d := by
  induction l with
  | nil => rfl
  | cons a t ih =>
    cases t with
    | nil => rfl
    | cons b r =>
      rw [List.reverse_cons]
      have hne : (b :: r).reverse ≠ [] := by simp
      obtain ⟨y, ys, hys⟩ : ∃ y ys, (b :: r).reverse = y :: ys := by
        cases hrv : (b :: r).reverse with
        | nil => exact absurd hrv hne
        | cons y ys => exact ⟨y, ys, rfl⟩
      rw [hys]
      have h1 : (y :: ys ++ [a]).headD d = y := rfl
      have h2 : (y :: ys).headD d = y := rfl
      rw [h1, ← h2, ← hys, ih, lastD_cons_cons]

theorem pathSum_cons_ne (x : Point) (l : List Point) (h : l ≠ []) (d : Point) :
    pathSum (x :: l) = cross x (l.headD d) + pathSum l := by
  cases l with
  | nil => exact absurd rfl h
  | cons b r => rfl

theorem pathSum_concat (l : List Point) (x d : Point) (h : l ≠ []) :
    pathSum (l ++ [x]) = pathSum l + cross (lastD l d) x := by
  induction l with
  | nil => exact absurd rfl h
  | cons a t ih =>
    cases t with
    | nil => show pathSum [a, x] = pathSum [a] + cross (lastD [a] d) x; simp [pathSum, lastD]
    | cons b r =>
      have : (a :: b :: r) ++ [x] = a :: ((b :: r) ++ [x]) := by simp
      rw [this]
      have hne : (b :: r) ++ [x] ≠ [] := by simp
      have hcons : ∃ y ys, (b :: r) ++ [x] = y :: ys := ⟨b, r ++ [x], by simp⟩
      obtain ⟨y, ys, hys⟩ := hcons
      rw [hys, show pathSum (a :: y :: ys) = cross a y + pathSum (y :: ys) from rfl, ← hys,
        ih (by simp), lastD_cons_cons]
      have hy : y = b := by
        have := hys
        simp at this
        exact this.1.symm
      subst hy
      show cross a y + (pathSum (y :: r) + cross (lastD (y :: r) d) x)
          = pathSum (a :: y :: r) + cross (lastD (y :: r) d) x
      rw [show pathSum (a :: y :: r) = cross a y + pathSum (y :: r) from rfl]
      ring

theorem pathSum_reverse (l : List Point) : pathSum l.reverse = -pathSum l := by
  induction l with
  | nil => simp [pathSum]
  | cons a t ih =>
    cases t with
    | nil => simp [pathSum]
    | cons b r =>
      rw [List.reverse_cons,
        pathSum_concat ((b :: r).reverse) a a (by simp), ih,
        lastD_reverse,
        pathSum_cons_ne a (b :: r) (by simp) a]
      have hh : (((b :: r) : List Point)).headD a = b := rfl
      rw [hh, cross_antisymm b a]
      ring

theorem shoelace_reverseRing (l : List Point) :
    shoelace (reverseRing l) = -shoelace l := by
  cases l with
  | nil => simp [shoelace, reverseRing]
  | cons p t =>
    cases t with
    | nil => simp [shoelace, reverseRing, pathSum, lastD, cross_self]
    | cons b r =>
      show shoelace (p :: (b :: r).reverse) = -shoelace (p :: b :: r)
      have hrev : ((b :: r) : List Point).reverse ≠ [] := by simp
      rw [show shoelace (p :: (b :: r).reverse)
            = pathSum (p :: (b :: r).reverse) + cross (lastD ((b :: r).reverse) p) p from rfl,
        show shoelace (p :: b :: r)
            = pathSum (p :: b :: r) + cross (lastD (b :: r) p) p from rfl,
        pathSum_cons_ne p ((b :: r).reverse) hrev p,
        pathSum_cons_ne p (b :: r) (by simp) p,
        pathSum_reverse, headD_reverse, lastD_reverse]
      have hh : (((b :: r) : List Point)).headD p = b := rfl
      rw [hh, cross_antisymm (lastD (b :: r) p) p, cross_antisymm b p]
      ring

theorem length_reverseRing (l : List Point) :
    (reverseRing l).length = l.length := by
  cases l <;> simp [reverseRing]

theorem reverseRing_perm (l : List Point) : (reverseRing l).Perm l := by
  cases l with
  | nil => exact List.Perm.refl _
  | cons h t => exact List.Perm.cons h (List.reverse_perm t)

theorem shoelace_forceCCW_nonneg (l : List Point) : 0 ≤ shoelace (forceCCW l) := by
  unfold forceCCW
  split
  · linarith
  · rw [shoelace_reverseRing]; linarith

theorem shoelace_forceCCW_pos (l : List Point) (h : shoelace l ≠ 0) :
    0 < shoelace (forceCCW l) := by
  unfold forceCCW
  split
  · assumption
  · rw [shoelace_reverseRing]
    rcases lt_or_gt_of_ne h with h1 | h1
    · linarith
    · exact absurd h1 (by assumption)

theorem geomArea_reverseRing (l : List Point) :
    geomArea (reverseRing l) = geomArea l := by
  unfold geomArea
  rw [shoelace_reverseRing, ratAbs_neg]

theorem geomArea_forceCCW (l : List Point) : geomArea (forceCCW l) = geomArea l := by
  unfold forceCCW
  split
  · rfl
  · exact geomArea_reverseRing l

theorem length_forceCCW (l : List Point) : (forceCCW l).length = l.length := by
  unfold forceCCW
  split
  · rfl
  · exact length_reverseRing l

theorem forceCCW_perm (l : List Point) : (forceCCW l).Perm l := by
  unfold forceCCW
  split
  · exact List.Perm.refl _
  · exact reverseRing_perm l

theorem forceCCW_nil : forceCCW [] = [] := rfl

theorem forceCCW_eq_nil_iff (l : List Point) : forceCCW l = [] ↔ l = [] := by
  constructor
  · intro h
    have := length_forceCCW l
    rw [h] at this
    exact List.length_eq_zero.mp this.symm
  · intro h; rw [h]; rfl

/-- A 4 by 4 transformation matrix, as the list that render.getMatrix hands
to spacialTransform. -/
abbrev Mat4 := Fin 4 → Fin 4 → ℚ

/-- The identity transform matrix: what render.getMatrix produces for the
pose dx = dy = dz = 0, theta = 0 on an identity modelview stack. -/
def idMat : Mat4 := fun i j => if i = j then 1 else 0

/-- The all-zero matrix, a legal (rank-deficient) argument of
spacialTransform. -/
def zeroMat : Mat4 := fun _ _ => 0

/-- Row-vector application performed in spacialTransform: the point is
homogenised to (x, y, 0, 1), right-multiplied by the matrix, and only the
first two coordinates of the product are kept. -/
def applyPoint (m : Mat4) (p : Point) : Point :=
  (p.1 * m 0 0 + p.2 * m 1 0 + 0 * m 2 0 + 1 * m 3 0,
   p.1 * m 0 1 + p.2 * m 1 1 + 0 * m 2 1 + 1 * m 3 1)

/-- Pointwise image of a ring under the homogenised matrix product, the
value of the numpy expression in spacialTransform before rebuilding the
polygon. -/
def transformRing (m : Mat4) (l : List Point) : List Point :=
  l.map (applyPoint m)

/-- Embedding of spacialTransform of src/polygons.py: transform every
vertex, rebuild the polygon and force counter-clockwise winding.  The
shapely polygon stores a closed ring and get_coordinates returns it closed;
transforming the duplicated closing vertex gives the duplicate of the
transformed head, so on open rings the operation is the pointwise map. -/
def spacialTransform (l : List Point) (m : Mat4) : List Point :=
  forceCCW (transformRing m l)

/-- Error outcomes of the catalog lookup in get: a missing key raises
KeyError, and the shapely ring constructor rejects rings whose closed form
has fewer than 4 coordinates. -/
inductive GetError where
  | notFound
  | invalidGeometry
  deriving DecidableEq, Repr

/-- Lookup of a shape name in the catalog loaded from the shapes JSON
(the dataset itself is external input; the embedding takes it as an
association list). -/
def lookupShape (catalog : List (String × List Point)) (name : String) :
    Option (List Point) :=
  (catalog.find? (fun kv => kv.1 == name)).map (fun kv => kv.2)

/-- Length of the closed form of a raw coordinate list: shapely appends the
first coordinate when the ring is not already closed. -/
def closedLength (raw : List Point) : Nat :=
  if raw.head? = raw.getLast? then raw.length else raw.length + 1

/-- Open-ring normalisation of a raw coordinate list: the duplicate closing
vertex, when present, is stripped. -/
def openRing (raw : List Point) : List Point :=
  if raw.head? = raw.getLast? then raw.dropLast else raw

/-- Embedding of the shapely Polygon constructor on a raw coordinate list:
an empty sequence builds the empty polygon, a ring whose closed form has
fewer than 4 coordinates raises, and anything else is stored as given with
no validity (self-intersection) check. -/
def polygonOfRaw (raw : List Point) : Except GetError (List Point) :=
  if raw.isEmpty then .ok []
  else if closedLength raw < 4 then .error .invalidGeometry
  else .ok (openRing raw)

/-- Embedding of get of src/polygons.py: look the name up in the catalog
(KeyError when absent), build the polygon and force counter-clockwise
winding. -/
def get (catalog : List (String × List Point)) (name : String) :
    Except GetError (List Point) :=
  match lookupShape catalog name with
  | none => .error .notFound
  | some raw => (polygonOfRaw raw).map forceCCW

/-- The shapely geometry kinds that the intersection call in andPolygons
can hand to the code that follows it. -/
inductive Geometry where
  | polygon (ring : List Point)
  | point (p : Point)
  | lineString (coords : List Point)
  | multiPolygon (rings : List (List Point))
  | geometryCollection (geoms : List Geometry)
  deriving Repr

/-- The geoms attribute of a shapely geometry: collections expose their
members, atomic geometries raise AttributeError (modelled as none). -/
def geomsOf : Geometry → Option (List Geometry)
  | .multiPolygon rs => some (rs.map Geometry.polygon)
  | .geometryCollection gs => some gs
  | _ => none

/-- One step of the largest-piece loop in andPolygons: a polygon member
with area strictly above the running best replaces it, everything else is
skipped. -/
def pickStep (acc : List Point) (g : Geometry) : List Point :=
  match g with
  | .polygon r => if geomArea acc < geomArea r then r else acc
  | _ => acc

/-- One comparison of the largest-piece loop restricted to plain rings. -/
def largestStep (acc r : List Point) : List Point :=
  if geomArea acc < geomArea r then r else acc

/-- The loop of andPolygons over the members of a multi-part result,
started from the empty polygon. -/
def largestPiece (rings : List (List Point)) : List Point :=
  rings.foldl largestStep []

/-- Embedding of andPolygons of src/polygons.py, lines 140 to 150.  The
shapely intersection call (external library, grid_size 0.05) is taken as
the input: a plain polygon result is returned with counter-clockwise
winding forced; a collection result is scanned for the polygon member of
strictly largest area, starting from the empty polygon; a result with no
geoms attribute makes the loop raise AttributeError, which the source
catches and turns into the empty polygon. -/
def andPolygons (intersectionResult : Geometry) : List Point :=
  match intersectionResult with
  | .polygon r => forceCCW r
  | g =>
    match geomsOf g with
    | none => []
    | some gs => forceCCW (gs.foldl pickStep [])

/-- Lexicographic order on points, used to sort the convex hull input. -/
def ptLE (p q : Point) : Prop := p.1 < q.1 ∨ (p.1 = q.1 ∧ p.2 ≤ q.2)

instance : DecidableRel ptLE := fun p q =>
  inferInstanceAs (Decidable (p.1 < q.1 ∨ (p.1 = q.1 ∧ p.2 ≤ q.2)))

instance : IsTotal Point ptLE := ⟨by
  intro p q
  unfold ptLE
  rcases lt_trichotomy p.1 q.1 with h | h | h
  · exact Or.inl (Or.inl h)
  · rcases le_total p.2 q.2 with h2 | h2
    · exact Or.inl (Or.inr ⟨h, h2⟩)
    · exact Or.inr (Or.inr ⟨h.symm, h2⟩)
  · exact Or.inr (Or.inl h)⟩

instance : IsTrans Point ptLE := ⟨by
  intro p q r hpq hqr
  unfold ptLE at hpq hqr ⊢
  rcases hpq with h1 | ⟨e1, l1⟩ <;> rcases hqr with h2 | ⟨e2, l2⟩
  · exact Or.inl (lt_trans h1 h2)
  · exact Or.inl (e2 ▸ h1)
  · exact Or.inl (e1 ▸ h2)
  · exact Or.inr ⟨e1.trans e2, le_trans l1 l2⟩⟩

instance : IsAntisymm Point ptLE := ⟨by
  intro p q hpq hqp
  unfold ptLE at hpq hqp
  rcases hpq with h1 | ⟨e1, l1⟩ <;> rcases hqp with h2 | ⟨e2, l2⟩
  · exact absurd h2 (lt_asymm h1)
  · exact absurd h1 (e2 ▸ lt_irrefl q.1)
  · exact absurd h2 (e1 ▸ lt_irrefl p.1)
  · exact Prod.ext e1 (le_antisymm l1 l2)⟩

/-- Orientation of the turn from o over a to b: positive for a left
(counter-clockwise) turn. -/
def cross3 (o a b : Point) : ℚ :=
  (a.1 - o.1) * (b.2 - o.2) - (a.2 - o.2) * (b.1 - o.1)

/-- One insertion step of the monotone chain: the chain is kept with its
newest point first, and points making a non-left turn are popped. -/
def addToChain (p : Point) : List Point → List Point
  | a :: b :: rest =>
    if cross3 b a p ≤ 0 then addToChain p (b :: rest) else p :: a :: b :: rest
  | acc => p :: acc

/-- Half hull of the monotone chain over the given point order, newest
point first. -/
def buildChain (pts : List Point) : List Point :=
  pts.foldl (fun acc p => addToChain p acc) []

/-- Sorted, duplicate-free input of the convex hull computation. -/
def hullInput (pts : List Point) : List Point :=
  (List.insertionSort ptLE pts).dedup

/-- Convex hull of the points of a ring by the monotone chain (lower hull
then upper hull), as a counter-clockwise ring; embeds the shapely
convex_hull attribute used by extrude. -/
def convexHull (pts : List Point) : List Point :=
  (buildChain (hullInput pts)).reverse.dropLast
    ++ (buildChain (hullInput pts).reverse).reverse.dropLast

/-- Python slice l[:n] for an integer n that may be negative. -/
def pyTake (l : List Point) (n : ℤ) : List Point :=
  if 0 ≤ n then l.take n.toNat else l.take (l.length - (-n).toNat)

/-- Closed form of an open ring, as shapely stores and returns exterior
coordinates: the head is appended again at the end. -/
def closedRing (l : List Point) : List Point :=
  match l with
  | [] => []
  | h :: t => (h :: t) ++ [h]

/-- The value num of extrude: the closed coordinate count of the exterior
ring minus one (so -1 on the empty polygon, as in the source). -/
def numOf (polygon : List Point) : ℤ := ((closedRing polygon).length : ℤ) - 1

/-- The value exterior of extrude: the closed coordinate list cut down by
the Python slice [:num]. -/
def exteriorOf (polygon : List Point) : List Point :=
  pyTake (closedRing polygon) (numOf polygon)

/-- The extrusion record built by extrude of src/polygons.py. -/
structure Prism where
  polygon : List Point
  vertices : List (ℚ × ℚ × ℚ)
  lines : List (ℤ × ℤ)
  bases : List (List ℤ)
  quads : List (ℤ × ℤ × ℤ × ℤ)
  isConvex : Bool
  deriving Repr

/-- Embedding of extrude of src/polygons.py.  The winding is forced
counter-clockwise first; num is the closed coordinate count minus one (so
it is -1 on the empty polygon, exactly as in the source); the vertex,
line, base and quad lists follow the comprehensions of the source with
Python modulo on integers; the convexity flag compares the polygon with
its convex hull (the shapely equals test on a polygon and its hull holds
exactly when the two enclose the same area). -/
def extrude (poly : List Point) (depth : ℚ) : Prism :=
  let polygon := forceCCW poly
  let num : ℤ := numOf polygon
  let exterior : List Point := exteriorOf polygon
  { polygon := polygon
    vertices := exterior.reverse.map (fun p => (p.1, p.2, (0 : ℚ)))
        ++ exterior.map (fun p => (p.1, p.2, depth))
    lines := (List.range num.toNat).map (fun (i : ℕ) => ((i : ℤ), ((i : ℤ) - 1) % num))
        ++ (List.range num.toNat).map
            (fun (i : ℕ) => ((i : ℤ) + num, (((i : ℤ) - 1) % num) + num))
        ++ (List.range num.toNat).map (fun (i : ℕ) => ((i : ℤ), -(i : ℤ) + (2 * num - 1)))
    bases := [(List.range num.toNat).map (fun (i : ℕ) => (i : ℤ)),
              (List.range num.toNat).map (fun (i : ℕ) => (i : ℤ) + num)]
    quads := (List.range num.toNat).map (fun (i : ℕ) =>
        ((i : ℤ), ((i : ℤ) - 1) % num, (-(i : ℤ) % num) + num, ((-(i : ℤ) - 1) % num) + num))
    isConvex := decide (geomArea polygon = geomArea (convexHull polygon)) }

/-- The default snapping tolerance of the intersection, grid_size 0.05. -/
def gridSize : ℚ := 1 / 20

/-- Snapping of one coordinate to the tolerance grid (round to the nearest
grid multiple). -/
def snapCoord (x : ℚ) : ℚ := gridSize * (⌊x / gridSize + 1 / 2⌋ : ℤ)

/-- Pointwise snapping of a ring to the tolerance grid. -/
def snapRing (l : List Point) : List Point :=
  l.map (fun p => (snapCoord p.1, snapCoord p.2))

/-- Modelled from the spec: the grid-snapped boolean intersection is
computed by the external shapely/GEOS library and is not part of src/; on
the one case this development needs, both arguments equal, the
set-intersection of a polygon with itself is the polygon itself, with every
coordinate snapped to the tolerance grid. -/
def selfIntersection (ring : List Point) : Geometry :=
  .polygon (snapRing ring)

/-- The value of andPolygons on two copies of the same polygon, with the
library intersection modelled by selfIntersection. -/
def andPolygonsSelf (ring : List Point) : List Point :=
  andPolygons (selfIntersection ring)

/-- The unit square ring used by the spec for concrete checks. -/
def unitSquare : List Point := [(0, 0), (1, 0), (1, 1), (0, 1)]

/-- The L-shaped hexagon ring used by the spec for concrete checks. -/
def ellHexagon : List Point := [(0, 0), (2, 0), (2, 1), (1, 1), (1, 2), (0, 2)]

/-- A self-intersecting (bowtie) ring. -/
def bowtieRing : List Point := [(0, 0), (1, 1), (1, 0), (0, 1)]

/-- A square whose coordinates do not lie on the snapping grid. -/
def bigSquare : List Point :=
  [(0, 0), (501 / 50, 0), (501 / 50, 501 / 50), (0, 501 / 50)]

/-- Intersection results that are not polygonal: a point, a line string, an
empty polygon, an empty multi-polygon, or a collection whose members are
all lower-dimensional (points and line strings). -/
def isDegenerateMember : Geometry → Bool
  | .point _ => true
  | .lineString _ => true
  | _ => false

/-- Boolean test for the non-polygonal intersection results of claim C1. -/
def nonPolygonalResult : Geometry → Bool
  | .polygon r => r.isEmpty
  | .point _ => true
  | .lineString _ => true
  | .multiPolygon rs => rs.isEmpty
  | .geometryCollection gs => gs.all isDegenerateMember

theorem foldl_pickStep_degenerate (gs : List Geometry) (acc : List Point)
    (h : ∀ x ∈ gs, isDegenerateMember x = true) :
    gs.foldl pickStep acc = acc := by
  induction gs generalizing acc with
  | nil => rfl
  | cons g rest ih =>
    have hg := h g (by simp)
    have hstep : pickStep acc g = acc := by
      cases g with
      | point p => rfl
      | lineString c => rfl
      | polygon r => simp [isDegenerateMember] at hg
      | multiPolygon rs => simp [isDegenerateMember] at hg
      | geometryCollection gg => simp [isDegenerateMember] at hg
    rw [List.foldl_cons, hstep]
    exact ih acc (fun x hx => h x (by simp [hx]))

/-- C1: when the intersection handed back by the library is not polygonal
(an empty polygon, a point, a line string, an empty multi-part result, or a
collection of points and line strings only), andPolygons returns the empty
polygon with zero vertices as a normal value; the AttributeError raised by
the geoms access on atomic geometries is caught inside the function. -/
theorem andPolygons_nonPolygonal_empty (g : Geometry)
    (h : nonPolygonalResult g = true) : andPolygons g = [] := by
  cases g with
  | polygon r =>
    have hr : r = [] := by simpa [nonPolygonalResult] using h
    subst hr; rfl
  | point p => rfl
  | lineString c => rfl
  | multiPolygon rs =>
    have hr : rs = [] := by simpa [nonPolygonalResult] using h
    subst hr; rfl
  | geometryCollection gs =>
    have hall : ∀ x ∈ gs, isDegenerateMember x = true := by
      simpa [nonPolygonalResult, List.all_eq_true] using h
    show forceCCW (gs.foldl pickStep []) = []
    rw [foldl_pickStep_degenerate gs [] hall]
    rfl

theorem andPolygons_nonPolygonal_empty_witness :
    andPolygons (.lineString [(0, 0), (1, 1)]) = [] :=
  andPolygons_nonPolygonal_empty (.lineString [(0, 0), (1, 1)]) (by decide)

/-- C10: spacialTransform on the zero-vertex polygon returns the empty
polygon for every transform matrix, a normal return with no exception. -/
theorem spacialTransform_empty (m : Mat4) : spacialTransform [] m = [] := rfl

theorem applyPoint_zeroMat (p : Point) : applyPoint zeroMat p = (0, 0) := by
  cases p with
  | mk x y =>
    show (x * zeroMat 0 0 + y * zeroMat 1 0 + 0 * zeroMat 2 0 + 1 * zeroMat 3 0,
          x * zeroMat 0 1 + y * zeroMat 1 1 + 0 * zeroMat 2 1 + 1 * zeroMat 3 1)
        = ((0 : ℚ), (0 : ℚ))
    show (x * 0 + y * 0 + 0 * 0 + 1 * 0, x * 0 + y * 0 + 0 * 0 + 1 * 0) = ((0 : ℚ), (0 : ℚ))
    norm_num

/-- C2 counterexample: the rank-deficient all-zero matrix is a legal input
of spacialTransform and collapses the unit square to a non-empty polygon
with four equal vertices, whose signed area is 0 and not positive, so a
non-empty returned polygon need not be counter-clockwise. -/
theorem spacialTransform_degenerate_output :
    spacialTransform unitSquare zeroMat ≠ []
    ∧ ¬ (0 < shoelace (spacialTransform unitSquare zeroMat)) := by
  have hmap : transformRing zeroMat unitSquare
      = [((0 : ℚ), (0 : ℚ)), (0, 0), (0, 0), (0, 0)] := by
    simp [transformRing, unitSquare, applyPoint_zeroMat]
  have hsl : shoelace ([((0 : ℚ), (0 : ℚ)), (0, 0), (0, 0), (0, 0)] : List Point) = 0 := by
    norm_num [shoelace, pathSum, cross, lastD]
  have hout : spacialTransform unitSquare zeroMat
      = [((0 : ℚ), (0 : ℚ)), (0, 0), (0, 0), (0, 0)] := by
    show forceCCW (transformRing zeroMat unitSquare)
        = [((0 : ℚ), (0 : ℚ)), (0, 0), (0, 0), (0, 0)]
    rw [hmap]
    unfold forceCCW
    rw [hsl, if_neg (lt_irrefl (0 : ℚ))]
    rfl
  rw [hout]
  exact ⟨by simp, by rw [hsl]; exact lt_irrefl 0⟩

theorem applyPoint_idMat (p : Point) : applyPoint idMat p = p := by
  cases p with
  | mk x y =>
    show (x * idMat 0 0 + y * idMat 1 0 + 0 * idMat 2 0 + 1 * idMat 3 0,
          x * idMat 0 1 + y * idMat 1 1 + 0 * idMat 2 1 + 1 * idMat 3 1) = (x, y)
    rw [show idMat 0 0 = 1 from rfl, show idMat 1 0 = 0 from rfl,
        show idMat 2 0 = 0 from rfl, show idMat 3 0 = 0 from rfl,
        show idMat 0 1 = 0 from rfl, show idMat 1 1 = 1 from rfl,
        show idMat 2 1 = 0 from rfl, show idMat 3 1 = 0 from rfl]
    norm_num

theorem transformRing_idMat (ring : List Point) : transformRing idMat ring = ring := by
  have hfun : applyPoint idMat = id := funext applyPoint_idMat
  show ring.map (applyPoint idMat) = ring
  rw [hfun, List.map_id]

/-- C8: the identity transform matrix maps every polygon to its
counter-clockwise normalisation, which has the same point set (it is a
permutation of the input ring) and exactly the same area. -/
theorem spacialTransform_identity (ring : List Point) :
    spacialTransform ring idMat = forceCCW ring
    ∧ (spacialTransform ring idMat).Perm ring
    ∧ geomArea (spacialTransform ring idMat) = geomArea ring := by
  have hmap : transformRing idMat ring = ring := transformRing_idMat ring
  refine ⟨?_, ?_, ?_⟩
  · show forceCCW (transformRing idMat ring) = forceCCW ring
    rw [hmap]
  · show (forceCCW (transformRing idMat ring)).Perm ring
    rw [hmap]; exact forceCCW_perm ring
  · show geomArea (forceCCW (transformRing idMat ring)) = geomArea ring
    rw [hmap]; exact geomArea_forceCCW ring

/-- C5 counterexample: on the empty polygon (the only constructible
polygon with fewer than 3 vertices) the cap-face list of extrude is not
empty; it holds two empty faces, because the source always emits the two
base tuples. -/
theorem extrude_empty_bases_not_empty :
    (extrude ([] : List Point) 1).bases ≠ []
    ∧ (extrude ([] : List Point) 1).bases.length = 2 := by
  constructor
  · intro h
    have : ([] : List (List ℤ)).length = 2 := by rw [← h]; rfl
    simp at this
  · rfl

theorem convexHull_nil : convexHull [] = [] := rfl

/-- C5 amended: on the empty polygon extrude returns empty vertex, edge
and side-quad lists and isConvex = true, but the cap-face list holds
exactly two empty faces rather than being empty. -/
theorem extrude_empty_prism (depth : ℚ) :
    (extrude [] depth).vertices = [] ∧ (extrude [] depth).lines = []
    ∧ (extrude [] depth).quads = [] ∧ (extrude [] depth).bases = [[], []]
    ∧ (extrude [] depth).isConvex = true :=
  ⟨rfl, rfl, rfl, rfl,
    (show decide (geomArea (forceCCW ([] : List Point))
        = geomArea (convexHull (forceCCW ([] : List Point)))) = true by
      rw [decide_eq_true_eq, forceCCW_nil, convexHull_nil])⟩

theorem andPolygons_multi (rs : List (List Point)) :
    andPolygons (.multiPolygon rs) = forceCCW (largestPiece rs) := by
  show forceCCW ((rs.map Geometry.polygon).foldl pickStep []) = forceCCW (largestPiece rs)
  congr 1
  rw [List.foldl_map]
  rfl

theorem shoelace_of_short (l : List Point) (h : l.length ≤ 2) : shoelace l = 0 := by
  cases l with
  | nil => rfl
  | cons p t =>
    cases t with
    | nil => simp [shoelace, pathSum, lastD, cross_self]
    | cons q r =>
      cases r with
      | nil =>
        show shoelace [p, q] = 0
        simp only [shoelace, pathSum, lastD]
        unfold cross
        ring
      | cons s r2 => simp at h

theorem openRing_length_le (raw : List Point) (h : closedLength raw < 4) :
    (openRing raw).length ≤ 2 := by
  unfold closedLength at h
  unfold openRing
  by_cases hd : raw.head? = raw.getLast?
  · rw [if_pos hd] at h
    rw [if_pos hd, List.length_dropLast]
    omega
  · rw [if_neg hd] at h
    rw [if_neg hd]
    omega

theorem get_ok_of_valid (catalog : List (String × List Point)) (name : String)
    (raw : List Point) (hlk : lookupShape catalog name = some raw)
    (hne : raw ≠ []) (hlen : ¬ closedLength raw < 4) :
    get catalog name = .ok (forceCCW (openRing raw)) := by
  have hemp : raw.isEmpty = false := by
    cases raw with
    | nil => exact absurd rfl hne
    | cons a t => rfl
  unfold get
  rw [hlk]
  show (polygonOfRaw raw).map forceCCW = .ok (forceCCW (openRing raw))
  unfold polygonOfRaw
  rw [if_neg (by rw [hemp]; simp), if_neg hlen]
  rfl

/-- C2 amended: every polygon returned by get, spacialTransform and
andPolygons has signed area at least 0 (never clockwise), and the signed
area is strictly positive whenever the ring being normalised is
nondegenerate (nonzero signed area) — for spacialTransform the transformed
ring, for andPolygons the ring of a polygon result and the selected piece
of a multi-part or collection result, for get the stored open ring of the
raw catalog entry; a non-empty degenerate output with signed area exactly
0 is possible, as the counterexample shows. -/
theorem geometry_outputs_never_clockwise (ring : List Point) (m : Mat4)
    (g : Geometry) (catalog : List (String × List Point)) (name : String) :
    0 ≤ shoelace (spacialTransform ring m)
    ∧ (shoelace (transformRing m ring) ≠ 0 → 0 < shoelace (spacialTransform ring m))
    ∧ 0 ≤ shoelace (andPolygons g)
    ∧ (∀ r, g = .polygon r → shoelace r ≠ 0 → 0 < shoelace (andPolygons g))
    ∧ (∀ rs, g = .multiPolygon rs → shoelace (largestPiece rs) ≠ 0
        → 0 < shoelace (andPolygons g))
    ∧ (∀ gs, g = .geometryCollection gs → shoelace (gs.foldl pickStep []) ≠ 0
        → 0 < shoelace (andPolygons g))
    ∧ (∀ out, get catalog name = .ok out → 0 ≤ shoelace out)
    ∧ (∀ raw, lookupShape catalog name = some raw → shoelace (openRing raw) ≠ 0 →
        get catalog name = .ok (forceCCW (openRing raw))
          ∧ 0 < shoelace (forceCCW (openRing raw))) := by
  refine ⟨shoelace_forceCCW_nonneg _, fun h => shoelace_forceCCW_pos _ h,
    ?_, ?_, ?_, ?_, ?_, ?_⟩
  · cases g with
    | polygon r => exact shoelace_forceCCW_nonneg r
    | point p => exact le_of_eq rfl
    | lineString c => exact le_of_eq rfl
    | multiPolygon rs => exact shoelace_forceCCW_nonneg _
    | geometryCollection gs => exact shoelace_forceCCW_nonneg _
  · intro r hg hr
    subst hg
    exact shoelace_forceCCW_pos r hr
  · intro rs hg hne
    subst hg
    rw [andPolygons_multi]
    exact shoelace_forceCCW_pos _ hne
  · intro gs hg hne
    subst hg
    show 0 < shoelace (forceCCW (gs.foldl pickStep []))
    exact shoelace_forceCCW_pos _ hne
  · intro out hout
    unfold get at hout
    cases hlk : lookupShape catalog name with
    | none => rw [hlk] at hout; exact absurd hout (by simp)
    | some raw =>
      rw [hlk] at hout
      have hout : (polygonOfRaw raw).map forceCCW = Except.ok out := hout
      unfold polygonOfRaw at hout
      by_cases hemp : raw.isEmpty
      · rw [if_pos hemp] at hout
        have : forceCCW [] = out := by
          have h2 : Except.ok (forceCCW []) = (Except.ok out : Except GetError (List Point)) := hout
          exact Except.ok.inj h2
        rw [← this, forceCCW_nil]
        exact le_of_eq rfl
      · rw [if_neg hemp] at hout
        by_cases hlen : closedLength raw < 4
        · rw [if_pos hlen] at hout
          exact absurd hout (by simp [Except.map])
        · rw [if_neg hlen] at hout
          have : forceCCW (openRing raw) = out := by
            have h2 : Except.ok (forceCCW (openRing raw))
                = (Except.ok out : Except GetError (List Point)) := hout
            exact Except.ok.inj h2
          rw [← this]
          exact shoelace_forceCCW_nonneg _
  · intro raw hlk hne
    have hraw : raw ≠ [] := by
      intro h0
      subst h0
      exact hne rfl
    have hlen : ¬ closedLength raw < 4 := by
      intro hlt
      exact hne (shoelace_of_short _ (openRing_length_le raw hlt))
    exact ⟨get_ok_of_valid catalog name raw hlk hraw hlen, shoelace_forceCCW_pos _ hne⟩

theorem geometry_outputs_never_clockwise_witness :
    0 < shoelace (spacialTransform unitSquare idMat)
    ∧ 0 < shoelace (andPolygons (.polygon unitSquare))
    ∧ (get [("square", unitSquare)] "square" = .ok (forceCCW (openRing unitSquare))
        ∧ 0 < shoelace (forceCCW (openRing unitSquare))) := by
  have husq : shoelace unitSquare = 2 := by
    norm_num [shoelace, unitSquare, pathSum, cross, lastD]
  have hsl : shoelace (transformRing idMat unitSquare) ≠ 0 := by
    rw [transformRing_idMat, husq]
    norm_num
  have hopen : openRing unitSquare = unitSquare := rfl
  have hne : shoelace (openRing unitSquare) ≠ 0 := by
    rw [hopen, husq]
    norm_num
  exact ⟨(geometry_outputs_never_clockwise unitSquare idMat (.polygon unitSquare)
            [("square", unitSquare)] "square").2.1 hsl,
         (geometry_outputs_never_clockwise unitSquare idMat (.polygon unitSquare)
            [("square", unitSquare)] "square").2.2.2.1 unitSquare rfl (by rw [husq]; norm_num),
         (geometry_outputs_never_clockwise unitSquare idMat (.polygon unitSquare)
            [("square", unitSquare)] "square").2.2.2.2.2.2.2 unitSquare rfl hne⟩

/-- C7 counterexample: get performs no self-intersection check and does
not reject rings with fewer than 3 points across the board; a
self-intersecting bowtie ring is looked up and returned (reversed, since
its shoelace sum is 0), and a zero-point raw ring produces the empty
polygon, both as normal non-error returns. -/
theorem get_accepts_invalid_rings :
    get [("bowtie", bowtieRing)] "bowtie"
        = .ok [(0, 0), (0, 1), (1, 0), (1, 1)]
    ∧ get [("empty", ([] : List Point))] "empty" = .ok [] := by
  have hsl : shoelace bowtieRing = 0 := by
    norm_num [bowtieRing, shoelace, pathSum, cross, lastD]
  have hfc : forceCCW bowtieRing = [(0, 0), (0, 1), (1, 0), (1, 1)] := by
    unfold forceCCW
    rw [hsl, if_neg (lt_irrefl (0 : ℚ))]
    rfl
  constructor
  · show Except.ok (forceCCW bowtieRing)
        = Except.ok ([(0, 0), (0, 1), (1, 0), (1, 1)] : List Point)
    rw [hfc]
  · rfl

/-- C7 amended: get fails with the not-found error exactly when the name
is absent from the catalog; a present raw ring with 1 or 2 points (closed
form shorter than 4 coordinates) fails with the invalid-geometry error of
the ring constructor; a present zero-point raw ring yields the empty
polygon as a normal return; every other present raw ring, self-intersecting
or not, is returned with counter-clockwise winding forced and no validity
check. -/
theorem get_validation (catalog : List (String × List Point)) (name : String) :
    (lookupShape catalog name = none → get catalog name = .error .notFound)
    ∧ (∀ raw, lookupShape catalog name = some raw → raw ≠ [] → closedLength raw < 4 →
        get catalog name = .error .invalidGeometry)
    ∧ (∀ raw, lookupShape catalog name = some raw → raw = [] → get catalog name = .ok [])
    ∧ (∀ raw, lookupShape catalog name = some raw → raw ≠ [] → ¬ closedLength raw < 4 →
        get catalog name = .ok (forceCCW (openRing raw))
          ∧ 0 ≤ shoelace (forceCCW (openRing raw))) := by
  refine ⟨?_, ?_, ?_, ?_⟩
  · intro h
    unfold get
    rw [h]
  · intro raw hlk hne hlen
    have hemp : raw.isEmpty = false := by
      cases raw with
      | nil => exact absurd rfl hne
      | cons a t => rfl
    unfold get
    rw [hlk]
    show (polygonOfRaw raw).map forceCCW = .error .invalidGeometry
    unfold polygonOfRaw
    rw [if_neg (by rw [hemp]; simp), if_pos hlen]
    rfl
  · intro raw hlk hnil
    subst hnil
    unfold get
    rw [hlk]
    rfl
  · intro raw hlk hne hlen
    have hemp : raw.isEmpty = false := by
      cases raw with
      | nil => exact absurd rfl hne
      | cons a t => rfl
    refine ⟨?_, shoelace_forceCCW_nonneg _⟩
    unfold get
    rw [hlk]
    show (polygonOfRaw raw).map forceCCW = .ok (forceCCW (openRing raw))
    unfold polygonOfRaw
    rw [if_neg (by rw [hemp]; simp), if_neg hlen]
    rfl

theorem get_validation_witness :
    get [("square", unitSquare)] "absent" = .error .notFound
    ∧ get [("segment", [((0 : ℚ), (0 : ℚ)), (1, 1)])] "segment"
        = .error .invalidGeometry :=
  ⟨(get_validation [("square", unitSquare)] "absent").1 rfl,
   (get_validation [("segment", [((0 : ℚ), (0 : ℚ)), (1, 1)])] "segment").2.1
      [((0 : ℚ), (0 : ℚ)), (1, 1)] rfl (by simp) (by decide)⟩

theorem numOf_cons (p : Point) (t : List Point) :
    numOf (p :: t) = (t.length : ℤ) + 1 := by
  show (((p :: t) ++ [p]).length : ℤ) - 1 = (t.length : ℤ) + 1
  simp

theorem exteriorOf_cons (p : Point) (t : List Point) :
    exteriorOf (p :: t) = p :: t := by
  unfold exteriorOf pyTake
  rw [numOf_cons, if_pos (by positivity)]
  have htn : (((t.length : ℤ) + 1)).toNat = (p :: t).length := by
    simp
  rw [htn]
  show (((p :: t) ++ [p]).take (p :: t).length) = p :: t
  exact List.take_left (p :: t) [p]

theorem extrude_vertices_eq (poly : List Point) (depth : ℚ) :
    (extrude poly depth).vertices
      = (exteriorOf (forceCCW poly)).reverse.map (fun p => (p.1, p.2, (0 : ℚ)))
        ++ (exteriorOf (forceCCW poly)).map (fun p => (p.1, p.2, depth)) := rfl

theorem extrude_lines_eq (poly : List Point) (depth : ℚ) :
    (extrude poly depth).lines
      = (List.range (numOf (forceCCW poly)).toNat).map
            (fun (i : ℕ) => ((i : ℤ), ((i : ℤ) - 1) % numOf (forceCCW poly)))
        ++ (List.range (numOf (forceCCW poly)).toNat).map
            (fun (i : ℕ) => ((i : ℤ) + numOf (forceCCW poly),
              (((i : ℤ) - 1) % numOf (forceCCW poly)) + numOf (forceCCW poly)))
        ++ (List.range (numOf (forceCCW poly)).toNat).map
            (fun (i : ℕ) => ((i : ℤ), -(i : ℤ) + (2 * numOf (forceCCW poly) - 1))) := rfl

theorem extrude_bases_eq (poly : List Point) (depth : ℚ) :
    (extrude poly depth).bases
      = [(List.range (numOf (forceCCW poly)).toNat).map (fun (i : ℕ) => (i : ℤ)),
         (List.range (numOf (forceCCW poly)).toNat).map
            (fun (i : ℕ) => (i : ℤ) + numOf (forceCCW poly))] := rfl

theorem extrude_quads_eq (poly : List Point) (depth : ℚ) :
    (extrude poly depth).quads
      = (List.range (numOf (forceCCW poly)).toNat).map (fun (i : ℕ) =>
          ((i : ℤ), ((i : ℤ) - 1) % numOf (forceCCW poly),
           (-(i : ℤ) % numOf (forceCCW poly)) + numOf (forceCCW poly),
           ((-(i : ℤ) - 1) % numOf (forceCCW poly)) + numOf (forceCCW poly))) := rfl

theorem quad_indices_distinct (N i : ℤ) (hN : 3 ≤ N) (hi0 : 0 ≤ i) (hiN : i < N) :
    i ≠ (i - 1) % N ∧ i ≠ (-i % N) + N ∧ i ≠ ((-i - 1) % N) + N
    ∧ (i - 1) % N ≠ (-i % N) + N ∧ (i - 1) % N ≠ ((-i - 1) % N) + N
    ∧ (-i % N) + N ≠ ((-i - 1) % N) + N := by
  have hN0 : N ≠ 0 := by omega
  have hNpos : (0 : ℤ) < N := by omega
  have hb1 : 0 ≤ (i - 1) % N := Int.emod_nonneg _ hN0
  have hb2 : (i - 1) % N < N := Int.emod_lt_of_pos _ hNpos
  have hc1 : 0 ≤ -i % N := Int.emod_nonneg _ hN0
  have hd1 : 0 ≤ (-i - 1) % N := Int.emod_nonneg _ hN0
  have key : ∀ x y : ℤ, x % N = y % N → N ∣ y - x :=
    fun x y hxy => Int.ModEq.dvd (show Int.ModEq N x y from hxy)
  refine ⟨?_, by omega, by omega, by omega, by omega, ?_⟩
  · intro heq
    have hi : i % N = i := Int.emod_eq_of_lt hi0 hiN
    have h2 : (i - 1) % N = i % N := by rw [hi, ← heq]
    have h3 : N ∣ i - (i - 1) := key _ _ h2
    have h4 : N ∣ (1 : ℤ) := by
      have he : i - (i - 1) = 1 := by ring
      rwa [he] at h3
    have := Int.le_of_dvd one_pos h4
    omega
  · intro heq
    have h2 : -i % N = (-i - 1) % N := by omega
    have h3 : N ∣ (-i - 1) - -i := key _ _ h2
    have h4 : N ∣ (-1 : ℤ) := by
      have he : (-i - 1) - -i = -1 := by ring
      rwa [he] at h3
    have h5 : N ∣ (1 : ℤ) := (dvd_neg).mp h4
    have := Int.le_of_dvd one_pos h5
    omega

/-- C3: for every input polygon with at least 3 vertices (rings are stored
without the duplicate closing vertex) extrude emits exactly 2N prism
vertices, 3N edges, exactly 2 cap faces of N indices each, N side quads,
and the 4 indices of every side quad are pairwise distinct. -/
theorem extrude_topology (ring : List Point) (depth : ℚ) (h : 3 ≤ ring.length) :
    (extrude ring depth).vertices.length = 2 * ring.length
    ∧ (extrude ring depth).lines.length = 3 * ring.length
    ∧ (extrude ring depth).bases.length = 2
    ∧ (∀ b ∈ (extrude ring depth).bases, b.length = ring.length)
    ∧ (extrude ring depth).quads.length = ring.length
    ∧ (∀ q ∈ (extrude ring depth).quads,
        q.1 ≠ q.2.1 ∧ q.1 ≠ q.2.2.1 ∧ q.1 ≠ q.2.2.2
        ∧ q.2.1 ≠ q.2.2.1 ∧ q.2.1 ≠ q.2.2.2 ∧ q.2.2.1 ≠ q.2.2.2) := by
  have hPne : forceCCW ring ≠ [] := by
    intro hnil
    have hnil2 := (forceCCW_eq_nil_iff ring).mp hnil
    rw [hnil2] at h
    simp at h
  obtain ⟨p, t, hpt⟩ : ∃ p t, forceCCW ring = p :: t := by
    cases hf : forceCCW ring with
    | nil => exact absurd hf hPne
    | cons p t => exact ⟨p, t, rfl⟩
  have hlen : t.length + 1 = ring.length := by
    have hl := length_forceCCW ring
    rw [hpt] at hl
    simpa using hl
  have hnum : numOf (forceCCW ring) = (ring.length : ℤ) := by
    rw [hpt, numOf_cons]
    rw [← hlen]
    push_cast
    ring
  have hext : exteriorOf (forceCCW ring) = p :: t := by rw [hpt, exteriorOf_cons]
  have htoNat : (numOf (forceCCW ring)).toNat = ring.length := by
    rw [hnum]
    simp
  have hN3 : 3 ≤ (ring.length : ℤ) := by exact_mod_cast h
  refine ⟨?_, ?_, ?_, ?_, ?_, ?_⟩
  · rw [extrude_vertices_eq, hext]
    simp only [List.length_append, List.length_map, List.length_reverse, List.length_cons]
    omega
  · rw [extrude_lines_eq, htoNat]
    simp only [List.length_append, List.length_map, List.length_range]
    omega
  · rw [extrude_bases_eq]
    rfl
  · intro b hb
    rw [extrude_bases_eq, htoNat] at hb
    simp only [List.mem_cons, List.mem_singleton, List.not_mem_nil, or_false] at hb
    rcases hb with hb | hb <;> rw [hb] <;>
      simp only [List.length_map, List.length_range]
  · rw [extrude_quads_eq, htoNat]
    simp only [List.length_map, List.length_range]
  · intro q hq
    rw [extrude_quads_eq, htoNat] at hq
    simp only [List.mem_map, List.mem_range] at hq
    obtain ⟨i, hi, hqe⟩ := hq
    have hi0 : (0 : ℤ) ≤ (i : ℤ) := by positivity
    have hiN : (i : ℤ) < (ring.length : ℤ) := by exact_mod_cast hi
    have hd := quad_indices_distinct (ring.length : ℤ) (i : ℤ) hN3 hi0 hiN
    rw [← hqe]
    rw [hnum]
    exact hd

theorem extrude_topology_witness :
    3 ≤ unitSquare.length
    ∧ ((extrude unitSquare 1).vertices.length = 2 * unitSquare.length
      ∧ (extrude unitSquare 1).lines.length = 3 * unitSquare.length
      ∧ (extrude unitSquare 1).bases.length = 2
      ∧ (∀ b ∈ (extrude unitSquare 1).bases, b.length = unitSquare.length)
      ∧ (extrude unitSquare 1).quads.length = unitSquare.length
      ∧ (∀ q ∈ (extrude unitSquare 1).quads,
          q.1 ≠ q.2.1 ∧ q.1 ≠ q.2.2.1 ∧ q.1 ≠ q.2.2.2
          ∧ q.2.1 ≠ q.2.2.1 ∧ q.2.1 ≠ q.2.2.2 ∧ q.2.2.1 ≠ q.2.2.2)) :=
  ⟨by simp [unitSquare], extrude_topology unitSquare 1 (by simp [unitSquare])⟩

theorem hullInput_perm_eq {l1 l2 : List Point} (h : l1.Perm l2) :
    hullInput l1 = hullInput l2 := by
  unfold hullInput
  congr 1
  exact List.eq_of_perm_of_sorted
    ((List.perm_insertionSort ptLE l1).trans (h.trans (List.perm_insertionSort ptLE l2).symm))
    (List.sorted_insertionSort ptLE l1) (List.sorted_insertionSort ptLE l2)

theorem convexHull_perm_eq {l1 l2 : List Point} (h : l1.Perm l2) :
    convexHull l1 = convexHull l2 := by
  unfold convexHull
  rw [hullInput_perm_eq h]

theorem convexHull_forceCCW (l : List Point) :
    convexHull (forceCCW l) = convexHull l :=
  convexHull_perm_eq (forceCCW_perm l)

/-- C6: the convexity flag of extrude holds exactly when the area of the
polygon agrees with the area of its convex hull (the embedding of the
shapely equals test against the convex hull, with exact rational arithmetic
in place of the floating tolerance); concretely the unit square is flagged
convex and the L-shaped hexagon is not. -/
theorem extrude_isConvex_iff :
    (∀ (ring : List Point) (depth : ℚ),
      ((extrude ring depth).isConvex = true
        ↔ geomArea ring = geomArea (convexHull ring)))
    ∧ (extrude unitSquare 1).isConvex = true
    ∧ (extrude ellHexagon 1).isConvex = false := by
  refine ⟨?_, ?_, ?_⟩
  · intro ring depth
    show decide (geomArea (forceCCW ring) = geomArea (convexHull (forceCCW ring))) = true ↔ _
    rw [decide_eq_true_eq, geomArea_forceCCW, convexHull_forceCCW]
  · norm_num [extrude, forceCCW, shoelace, pathSum, cross, lastD, unitSquare,
      convexHull, hullInput, List.insertionSort, List.orderedInsert, ptLE,
      List.dedup, List.pwFilter, buildChain, addToChain, cross3, geomArea, ratAbs,
      Prod.mk.injEq, ne_eq, -Prod.mk_zero_zero, -Prod.mk_one_one]
  · norm_num [extrude, forceCCW, shoelace, pathSum, cross, lastD, ellHexagon,
      convexHull, hullInput, List.insertionSort, List.orderedInsert, ptLE,
      List.dedup, List.pwFilter, buildChain, addToChain, cross3, geomArea, ratAbs,
      Prod.mk.injEq, ne_eq, -Prod.mk_zero_zero, -Prod.mk_one_one]

theorem geomArea_nil : geomArea [] = 0 := by
  norm_num [geomArea, shoelace, ratAbs]

theorem largest_loop_spec (rs : List (List Point)) (acc : List Point) :
    (rs.foldl largestStep acc = acc ∧ ∀ r ∈ rs, geomArea r ≤ geomArea acc)
    ∨ (∃ l1 l2, rs = l1 ++ (rs.foldl largestStep acc) :: l2
        ∧ geomArea acc < geomArea (rs.foldl largestStep acc)
        ∧ (∀ r ∈ l1, geomArea r < geomArea (rs.foldl largestStep acc))
        ∧ (∀ r ∈ l2, geomArea r ≤ geomArea (rs.foldl largestStep acc))) := by
  induction rs generalizing acc with
  | nil => exact Or.inl ⟨rfl, by simp⟩
  | cons r rest ih =>
    rw [List.foldl_cons]
    by_cases hc : geomArea acc < geomArea r
    · rw [show largestStep acc r = r from if_pos hc]
      rcases ih r with ⟨hw, hall⟩ | ⟨l1, l2, hsplit, hlt, hl1, hl2⟩
      · right
        refine ⟨[], rest, ?_, ?_, ?_, ?_⟩
        · rw [hw]; rfl
        · rw [hw]; exact hc
        · intro x hx; simp at hx
        · intro x hx; rw [hw]; exact hall x hx
      · right
        refine ⟨r :: l1, l2, ?_, lt_trans hc hlt, ?_, hl2⟩
        · rw [List.cons_append, ← hsplit]
        · intro x hx
          rcases List.mem_cons.mp hx with rfl | hx2
          · exact hlt
          · exact hl1 x hx2
    · have hc2 : geomArea r ≤ geomArea acc := not_lt.mp hc
      rw [show largestStep acc r = acc from if_neg hc]
      rcases ih acc with ⟨hw, hall⟩ | ⟨l1, l2, hsplit, hlt, hl1, hl2⟩
      · refine Or.inl ⟨hw, ?_⟩
        intro x hx
        rcases List.mem_cons.mp hx with rfl | hx2
        · exact hc2
        · exact hall x hx2
      · right
        refine ⟨r :: l1, l2, ?_, hlt, ?_, hl2⟩
        · rw [List.cons_append, ← hsplit]
        · intro x hx
          rcases List.mem_cons.mp hx with rfl | hx2
          · exact lt_of_le_of_lt hc2 hlt
          · exact hl1 x hx2

/-- C4: on a multi-part intersection result whose pieces include one of
positive area, andPolygons returns the counter-clockwise normalisation of
the first piece of maximal area: every earlier piece has strictly smaller
area, every piece has area at most that of the winner (exact ties keep the
first-encountered piece), and the returned ring has the winning area and
positive signed area (counter-clockwise winding). -/
theorem andPolygons_largest (rs : List (List Point))
    (h : ∃ r ∈ rs, 0 < geomArea r) :
    andPolygons (.multiPolygon rs) = forceCCW (largestPiece rs)
    ∧ (∃ l1 l2, rs = l1 ++ largestPiece rs :: l2
        ∧ ∀ r ∈ l1, geomArea r < geomArea (largestPiece rs))
    ∧ (∀ r ∈ rs, geomArea r ≤ geomArea (largestPiece rs))
    ∧ geomArea (forceCCW (largestPiece rs)) = geomArea (largestPiece rs)
    ∧ 0 < shoelace (forceCCW (largestPiece rs)) := by
  obtain ⟨r0, hr0, hr0pos⟩ := h
  have hfold : rs.foldl largestStep [] = largestPiece rs := rfl
  rcases largest_loop_spec rs [] with ⟨hw, hall⟩ | ⟨l1, l2, hsplit, hlt, hl1, hl2⟩
  · exfalso
    have hle := hall r0 hr0
    rw [geomArea_nil] at hle
    linarith
  · rw [hfold] at hsplit hlt hl1 hl2
    rw [geomArea_nil] at hlt
    have hmax : ∀ r ∈ rs, geomArea r ≤ geomArea (largestPiece rs) := by
      intro x hx
      rw [hsplit] at hx
      rcases List.mem_append.mp hx with hx1 | hx2
      · exact le_of_lt (hl1 x hx1)
      · rcases List.mem_cons.mp hx2 with rfl | hx3
        · exact le_refl _
        · exact hl2 x hx3
    have hne : shoelace (largestPiece rs) ≠ 0 := by
      intro h0
      unfold geomArea at hlt
      rw [h0] at hlt
      norm_num [ratAbs] at hlt
    exact ⟨andPolygons_multi rs, ⟨l1, l2, hsplit, hl1⟩, hmax,
      geomArea_forceCCW _, shoelace_forceCCW_pos _ hne⟩

/-- Two disjoint pieces, a small triangle and the unit square. -/
def piecesExample : List (List Point) :=
  [[(0, 0), (1 / 2, 0), (0, 1 / 2)], unitSquare]

theorem andPolygons_largest_witness :
    (∃ r ∈ piecesExample, 0 < geomArea r)
    ∧ (andPolygons (.multiPolygon piecesExample) = forceCCW (largestPiece piecesExample)
      ∧ (∃ l1 l2, piecesExample = l1 ++ largestPiece piecesExample :: l2
          ∧ ∀ r ∈ l1, geomArea r < geomArea (largestPiece piecesExample))
      ∧ (∀ r ∈ piecesExample, geomArea r ≤ geomArea (largestPiece piecesExample))
      ∧ geomArea (forceCCW (largestPiece piecesExample))
          = geomArea (largestPiece piecesExample)
      ∧ 0 < shoelace (forceCCW (largestPiece piecesExample))) := by
  have hyp : ∃ r ∈ piecesExample, 0 < geomArea r := by
    refine ⟨unitSquare, by simp [piecesExample], ?_⟩
    norm_num [geomArea, unitSquare, shoelace, pathSum, cross, lastD, ratAbs]
  exact ⟨hyp, andPolygons_largest piecesExample hyp⟩

/-- A coordinate lying exactly on the snapping grid. -/
def onGrid (x : ℚ) : Prop := ∃ k : ℤ, x = k * gridSize

theorem floor_half : ⌊(1 / 2 : ℚ)⌋ = 0 := by
  rw [Int.floor_eq_zero_iff]
  constructor <;> norm_num

theorem snapCoord_onGrid (x : ℚ) (h : onGrid x) : snapCoord x = x := by
  obtain ⟨k, rfl⟩ := h
  unfold snapCoord gridSize
  have h1 : (k : ℚ) * (1 / 20) / (1 / 20) = (k : ℚ) := by
    rw [mul_div_assoc, div_self (by norm_num : (1 / 20 : ℚ) ≠ 0), mul_one]
  rw [h1]
  have h2 : ⌊(k : ℚ) + 1 / 2⌋ = k := by
    rw [Int.floor_int_add, floor_half, add_zero]
  rw [h2]
  ring

theorem snapRing_onGrid (ring : List Point)
    (h : ∀ p ∈ ring, onGrid p.1 ∧ onGrid p.2) : snapRing ring = ring := by
  induction ring with
  | nil => rfl
  | cons p t ih =>
    have hp := h p (by simp)
    have ht := ih (fun q hq => h q (by simp [hq]))
    show (snapCoord p.1, snapCoord p.2) :: snapRing t = p :: t
    rw [snapCoord_onGrid _ hp.1, snapCoord_onGrid _ hp.2, ht]

/-- C9 amended: for every polygon whose coordinates lie on the snapping
grid of the tolerance (0.05), intersecting the polygon with itself yields
a polygon of exactly the same area; off-grid coordinates are moved by the
snap and the area can shift by more than the tolerance, as the
counterexample shows. -/
theorem andPolygonsSelf_area (ring : List Point)
    (h : ∀ p ∈ ring, onGrid p.1 ∧ onGrid p.2) :
    geomArea (andPolygonsSelf ring) = geomArea ring := by
  show geomArea (andPolygons (.polygon (snapRing ring))) = geomArea ring
  rw [snapRing_onGrid ring h]
  show geomArea (forceCCW ring) = geomArea ring
  exact geomArea_forceCCW ring

theorem andPolygonsSelf_area_witness :
    (∀ p ∈ unitSquare, onGrid p.1 ∧ onGrid p.2)
    ∧ geomArea (andPolygonsSelf unitSquare) = geomArea unitSquare := by
  have h0 : onGrid (0 : ℚ) := ⟨0, by norm_num [gridSize]⟩
  have h1 : onGrid (1 : ℚ) := ⟨20, by norm_num [gridSize]⟩
  have hgrid : ∀ p ∈ unitSquare, onGrid p.1 ∧ onGrid p.2 := by
    intro p hp
    fin_cases hp <;> constructor <;> first | exact h0 | exact h1
  exact ⟨hgrid, andPolygonsSelf_area unitSquare hgrid⟩

theorem floor_big : ⌊(2009 / 10 : ℚ)⌋ = 200 := by
  have hsplit : (2009 / 10 : ℚ) = ((200 : ℤ) : ℚ) + 9 / 10 := by
    push_cast
    norm_num
  rw [hsplit, Int.floor_int_add]
  have h910 : ⌊(9 / 10 : ℚ)⌋ = 0 := by
    rw [Int.floor_eq_zero_iff]
    constructor <;> norm_num
  rw [h910]
  norm_num

theorem snapCoord_zero : snapCoord 0 = 0 :=
  snapCoord_onGrid 0 ⟨0, by norm_num [gridSize]⟩

theorem snapCoord_big : snapCoord (501 / 50) = 10 := by
  unfold snapCoord gridSize
  have h1 : (501 / 50 : ℚ) / (1 / 20) + 1 / 2 = 2009 / 10 := by norm_num
  rw [h1, floor_big]
  norm_num

/-- C9 counterexample: the grid snap of the tolerant intersection moves
off-grid coordinates, so intersecting the square of side 10.02 with itself
returns the snapped square of side 10; the area drops from 100.4004 to
100, a difference far above the 0.05 tolerance. -/
theorem andPolygonsSelf_offgrid :
    geomArea (andPolygonsSelf bigSquare) = 100
    ∧ geomArea bigSquare = 251001 / 2500
    ∧ ¬ (|geomArea (andPolygonsSelf bigSquare) - geomArea bigSquare| ≤ gridSize) := by
  have hsq : shoelace ([((0 : ℚ), (0 : ℚ)), (10, 0), (10, 10), (0, 10)]) = 200 := by
    norm_num [shoelace, pathSum, cross, lastD]
  have hsnap : snapRing bigSquare = [(0, 0), (10, 0), (10, 10), (0, 10)] := by
    simp [snapRing, bigSquare, snapCoord_zero, snapCoord_big]
  have h1 : geomArea (andPolygonsSelf bigSquare) = 100 := by
    show geomArea (andPolygons (.polygon (snapRing bigSquare))) = 100
    rw [hsnap]
    show geomArea (forceCCW [(0, 0), (10, 0), (10, 10), (0, 10)]) = 100
    unfold forceCCW
    rw [if_pos (by rw [hsq]; norm_num)]
    unfold geomArea
    rw [hsq]
    norm_num [ratAbs]
  have h2 : geomArea bigSquare = 251001 / 2500 := by
    norm_num [geomArea, bigSquare, shoelace, pathSum, cross, lastD, ratAbs]
  refine ⟨h1, h2, ?_⟩
  rw [h1, h2]
  rw [show (100 : ℚ) - 251001 / 2500 = -(1001 / 2500) by norm_num, abs_neg,
    abs_of_nonneg (by norm_num : (0 : ℚ) ≤ 1001 / 2500)]
  norm_num [gridSize]

end StackPlus
